import Mathlib

/-!
# Raw-return labelling: shallow embedding

The repository's notebook (`Labelling/Labels Raw Return/Raw Return.ipynb`)
documents and demonstrates a single operation, `raw_return`, which maps a
timestamp-indexed price series to a series of labels: simple or logarithmic
returns over a `lookback` window, optionally resampled to a coarser
frequency, optionally discretised to the sign, and optionally lagged so the
labels become forward-looking.  The notebook imports the implementation from
an external library, so the body of `raw_return` is not part of the
repository source; the definitions below are therefore modelled from the
specification's algorithm (spec section 4.1) and data model (spec section 3).

Modelling choices:
* A price series is `List (Nat × α)`: ordered (timestamp, price) pairs.
* Prices live in a `LinearOrderedField` (instantiated at `ℚ` for exact
  arithmetic claims and at `ℝ` for logarithmic-return claims).
* The natural logarithm is passed as a parameter `lg : α → α` so the
  definitions stay computable; theorems about logarithmic mode instantiate
  it with `Real.log`.
* The missing-value marker (`NaN` in the notebook's pandas output) is
  `Option.none`; defined values are `Option.some`.
* A resampling frequency code is modelled as a bucket-assignment function
  `Nat → Nat` on timestamps; aggregation keeps the last observation of each
  bucket.
* IEEE-754 division-by-zero propagation (spec sections 4.1 and 7) is
  modelled separately on an extended value domain `IEEEVal` with signed
  infinities and a NaN.
-/

/-- Modelled from the spec: the per-position return value (spec 4.1 step 2).
`r_t = price_t / price_{t-lookback} - 1` in simple mode, or
`ln(price_t / price_{t-lookback})` in logarithmic mode; `lg` stands for the
natural logarithm. -/
def rawReturnAt {α : Type} [LinearOrderedField α] (lg : α → α)
    (logarithmic : Bool) (pt pk : α) : α :=
  if logarithmic then lg (pt / pk) else pt / pk - 1

/-- Modelled from the spec: steps 2-3 of the algorithm.  Position `t` holds
the return against position `t - lookback` when that predecessor exists, and
the missing marker for the first `lookback` positions. -/
def returnsCore {α : Type} [LinearOrderedField α] (lg : α → α)
    (logarithmic : Bool) (lookback : Nat) (ps : List α) : List (Option α) :=
  (List.range ps.length).map fun t =>
    if lookback ≤ t then
      ps[t]?.bind fun pt => (ps[t - lookback]?).map fun pk =>
        rawReturnAt lg logarithmic pt pk
    else none

/-- Modelled from the spec: the sign function used for categorical labels
(spec 4.1 step 4): `-1` if negative, `0` if exactly zero, `1` if positive. -/
def signVal {α : Type} [LinearOrderedField α] (r : α) : α :=
  if r < 0 then -1 else if r = 0 then 0 else 1

/-- Modelled from the spec: step 4, replacing each defined return with its
sign; missing positions stay missing. -/
def binarize {α : Type} [LinearOrderedField α]
    (xs : List (Option α)) : List (Option α) :=
  xs.map (Option.map signVal)

/-- Modelled from the spec: step 5, the one-period backward shift.  The value
computed for position `t + 1` is reported at position `t` and the final
position becomes missing. -/
def lagShift {α : Type} (xs : List (Option α)) : List (Option α) :=
  match xs with
  | [] => []
  | _ :: rest => rest ++ [none]

/-- Modelled from the spec: step 1, aggregation to a coarser frequency,
keeping the last price observed in each bucket.  `f` assigns each timestamp
to its bucket; an observation is dropped when the next observation falls in
the same bucket. -/
def resampleLast {α : Type} (f : Nat → Nat) :
    List (Nat × α) → List (Nat × α)
  | [] => []
  | x :: xs =>
    match xs with
    | [] => [x]
    | y :: _ =>
      if f x.1 = f y.1 then resampleLast f xs else x :: resampleLast f xs

/-- Modelled from the spec: the series actually labelled — the input, or its
aggregation when a resampling frequency is given. -/
def resampledPrices {α : Type} (prices : List (Nat × α))
    (resample_by : Option (Nat → Nat)) : List (Nat × α) :=
  match resample_by with
  | some f => resampleLast f prices
  | none => prices

/-- Modelled from the spec: steps 2-5 of the algorithm on a plain list of
prices (after any resampling): returns, then optional sign discretisation,
then optional backward shift. -/
def rawReturnFlat {α : Type} [LinearOrderedField α] (lg : α → α)
    (lookback : Nat) (logarithmic binary lag : Bool)
    (ps : List α) : List (Option α) :=
  let r0 := returnsCore lg logarithmic lookback ps
  let r1 := if binary then binarize r0 else r0
  if lag then lagShift r1 else r1

/-- Modelled from the spec: the full `raw_return` operation
(spec 6: `label(prices, lookback, logarithmic, binary, resample_by, lag)`),
whose implementation the notebook imports from an external library. -/
def raw_return {α : Type} [LinearOrderedField α] (lg : α → α)
    (prices : List (Nat × α)) (lookback : Nat) (logarithmic binary : Bool)
    (resample_by : Option (Nat → Nat)) (lag : Bool) : List (Option α) :=
  rawReturnFlat lg lookback logarithmic binary lag
    ((resampledPrices prices resample_by).map Prod.snd)

/-- Modelled from the spec: the operation together with its warning channel.
Spec 4.1 and 7: when `lookback` is at least the length of the (resampled)
series the call still succeeds, returns an all-missing series and surfaces a
warning; the Boolean records whether the warning fired. -/
def raw_return_w {α : Type} [LinearOrderedField α] (lg : α → α)
    (prices : List (Nat × α)) (lookback : Nat) (logarithmic binary : Bool)
    (resample_by : Option (Nat → Nat)) (lag : Bool) :
    List (Option α) × Bool :=
  (raw_return lg prices lookback logarithmic binary resample_by lag,
   decide ((resampledPrices prices resample_by).length ≤ lookback))

/-- Modelled from the spec: a call with every optional argument omitted,
using the documented defaults `lookback = 1`, `logarithmic = false`,
`binary = false`, no resampling, `lag = false`. -/
def raw_return_default_call {α : Type} [LinearOrderedField α] (lg : α → α)
    (prices : List (Nat × α)) : List (Option α) :=
  raw_return lg prices 1 false false none false

/-- Modelled from the spec: aggregation to a coarser frequency as an
external process would perform it, following the spec's words directly — for
each bucket keep the last price observed in it, i.e. keep an observation
exactly when no later observation falls in the same bucket. -/
def externalAggregate {α : Type} (f : Nat → Nat) :
    List (Nat × α) → List (Nat × α)
  | [] => []
  | x :: xs =>
    if xs.any (fun y => f y.1 = f x.1) then externalAggregate f xs
    else x :: externalAggregate f xs

/-! ## Basic index lemmas -/

theorem returnsCore_length {α : Type} [LinearOrderedField α] (lg : α → α)
    (logarithmic : Bool) (lookback : Nat) (ps : List α) :
    (returnsCore lg logarithmic lookback ps).length = ps.length := by
  simp [returnsCore]

theorem returnsCore_getElem? {α : Type} [LinearOrderedField α] (lg : α → α)
    (logarithmic : Bool) (lookback : Nat) (ps : List α) (t : Nat)
    (ht : t < ps.length) :
    (returnsCore lg logarithmic lookback ps)[t]? =
      some (if lookback ≤ t then
        ps[t]?.bind fun pt => (ps[t - lookback]?).map fun pk =>
          rawReturnAt lg logarithmic pt pk
      else none) := by
  unfold returnsCore
  rw [List.getElem?_map, List.getElem?_range ht]
  rfl

theorem binarize_length {α : Type} [LinearOrderedField α]
    (xs : List (Option α)) : (binarize xs).length = xs.length := by
  simp [binarize]

theorem binarize_getElem? {α : Type} [LinearOrderedField α]
    (xs : List (Option α)) (t : Nat) :
    (binarize xs)[t]? = xs[t]?.map (Option.map signVal) := by
  simp [binarize]

theorem lagShift_length {α : Type} (xs : List (Option α)) :
    (lagShift xs).length = xs.length := by
  cases xs with
  | nil => rfl
  | cons x rest => simp [lagShift]

theorem lagShift_getElem? {α : Type} (xs : List (Option α)) (t : Nat)
    (ht : t + 1 < xs.length) : (lagShift xs)[t]? = xs[t + 1]? := by
  cases xs with
  | nil => simp at ht
  | cons x rest =>
    have ht' : t < rest.length := by
      simpa using Nat.lt_of_succ_lt_succ ht
    simp [lagShift, List.getElem?_append, ht']

theorem lagShift_getLast? {α : Type} (xs : List (Option α))
    (hne : xs ≠ []) : (lagShift xs).getLast? = some none := by
  cases xs with
  | nil => exact absurd rfl hne
  | cons x rest => simp [lagShift]

theorem raw_return_noresample_nolag_getElem? {α : Type} [LinearOrderedField α]
    (lg : α → α) (prices : List (Nat × α)) (k : Nat) (lb bb : Bool) (t : Nat) :
    (raw_return lg prices k lb bb none false)[t]? =
      ((returnsCore lg lb k (prices.map Prod.snd))[t]?).map
        (fun o => if bb then o.map signVal else o) := by
  cases bb with
  | false =>
    show (returnsCore lg lb k (prices.map Prod.snd))[t]? = _
    cases (returnsCore lg lb k (prices.map Prod.snd))[t]? <;> rfl
  | true =>
    show (binarize (returnsCore lg lb k (prices.map Prod.snd)))[t]? = _
    rw [binarize_getElem?]
    cases (returnsCore lg lb k (prices.map Prod.snd))[t]? <;> rfl

/-- C1: for a strictly positive price series and valid lookback `k`, with
`logarithmic = false`, `binary = false`, `lag = false` and no resampling, the
output at each defined position `t` is exactly `price[t] / price[t-k] - 1`. -/
theorem C1_simple_return_exact {α : Type} [LinearOrderedField α] (lg : α → α)
    (prices : List (Nat × α)) (k t : Nat) (pt pk : α)
    (hk : 1 ≤ k) (hkt : k ≤ t)
    (hpos : ∀ p ∈ prices, 0 < p.2)
    (h1 : (prices.map Prod.snd)[t]? = some pt)
    (h2 : (prices.map Prod.snd)[t - k]? = some pk) :
    (raw_return lg prices k false false none false)[t]? =
      some (some (pt / pk - 1)) := by
  have ht : t < (prices.map Prod.snd).length := by
    rcases List.getElem?_eq_some.mp h1 with ⟨h, _⟩
    exact h
  rw [raw_return_noresample_nolag_getElem?,
      returnsCore_getElem? lg false k (prices.map Prod.snd) t ht,
      if_pos hkt, h1, h2]
  simp [rawReturnAt]

/-- Witness for C1 at prices `[(0, 2), (1, 3)]`, `k = 1`, `t = 1`. -/
theorem C1_simple_return_exact_witness :
    (raw_return (fun q : ℚ => q) [(0, 2), (1, 3)] 1 false false none
        false)[1]? = some (some ((3 : ℚ) / 2 - 1)) :=
  C1_simple_return_exact (fun q : ℚ => q) [(0, 2), (1, 3)] 1 1 3 2
    (by decide) (by decide) (by decide) (by decide) (by decide)

/-- C7: for a non-resampled, non-lagged series strictly longer than
`lookback`, a position holds the missing marker exactly when it is one of the
first `lookback` positions. -/
theorem C7_first_lookback_missing {α : Type} [LinearOrderedField α]
    (lg : α → α) (prices : List (Nat × α)) (k : Nat) (lb bb : Bool) (t : Nat)
    (hlen : k < prices.length) (ht : t < prices.length) :
    ((raw_return lg prices k lb bb none false)[t]? = some none ↔ t < k) := by
  have ht' : t < (prices.map Prod.snd).length := by simpa using ht
  have htk : t - k < (prices.map Prod.snd).length :=
    lt_of_le_of_lt (Nat.sub_le t k) ht'
  rw [raw_return_noresample_nolag_getElem?,
      returnsCore_getElem? lg lb k (prices.map Prod.snd) t ht']
  by_cases hkt : k ≤ t
  · rw [if_pos hkt]
    rw [List.getElem?_eq_getElem ht', List.getElem?_eq_getElem htk]
    constructor
    · intro h
      exfalso
      cases bb <;> simp at h
    · intro h
      exact absurd hkt (Nat.not_le.mpr h)
  · rw [if_neg hkt]
    constructor
    · intro _
      exact Nat.lt_of_not_le hkt
    · intro _
      cases bb <;> rfl

/-- Witness for C7 at prices `[(0, 2), (1, 3), (2, 5)]`, `k = 1`: position 0
is missing, position 1 is not. -/
theorem C7_first_lookback_missing_witness :
    ((raw_return (fun q : ℚ => q) [(0, 2), (1, 3), (2, 5)] 1 false false none
        false)[0]? = some none ↔ (0 : Nat) < 1) ∧
    ((raw_return (fun q : ℚ => q) [(0, 2), (1, 3), (2, 5)] 1 false false none
        false)[1]? = some none ↔ (1 : Nat) < 1) :=
  ⟨C7_first_lookback_missing (fun q : ℚ => q) [(0, 2), (1, 3), (2, 5)] 1
      false false 0 (by decide) (by decide),
   C7_first_lookback_missing (fun q : ℚ => q) [(0, 2), (1, 3), (2, 5)] 1
      false false 1 (by decide) (by decide)⟩

/-- C9: the call with every optional argument omitted coincides with the
call at the documented defaults `lookback = 1`, `logarithmic = false`,
`binary = false`, no resampling, `lag = false`, and in particular produces
the trailing (unshifted, undiscretised) return series. -/
theorem C9_default_arguments {α : Type} [LinearOrderedField α] (lg : α → α)
    (prices : List (Nat × α)) :
    raw_return_default_call lg prices =
        raw_return lg prices 1 false false none false ∧
      raw_return_default_call lg prices =
        returnsCore lg false 1 (prices.map Prod.snd) :=
  ⟨rfl, rfl⟩

theorem raw_return_nolag_length {α : Type} [LinearOrderedField α]
    (lg : α → α) (prices : List (Nat × α)) (k : Nat) (lb bb : Bool) :
    (raw_return lg prices k lb bb none false).length = prices.length := by
  cases bb <;>
    simp [raw_return, rawReturnFlat, resampledPrices, binarize_length,
      returnsCore_length]

/-- C4: with `lag = true` the output is the one-position backward shift of
the unlagged output — the value computed for position `t + 1` is reported at
position `t` and the final position becomes missing — and applying the shift
twice moves values back by two positions. -/
theorem C4_lag_shifts_by_one {α : Type} [LinearOrderedField α] (lg : α → α)
    (prices : List (Nat × α)) (k : Nat) (lb bb : Bool) (t : Nat)
    (xs : List (Option α)) :
    (raw_return lg prices k lb bb none true =
        lagShift (raw_return lg prices k lb bb none false)) ∧
      ((raw_return lg prices k lb bb none true).length =
        (raw_return lg prices k lb bb none false).length) ∧
      (t + 1 < (raw_return lg prices k lb bb none false).length →
        (raw_return lg prices k lb bb none true)[t]? =
          (raw_return lg prices k lb bb none false)[t + 1]?) ∧
      (prices ≠ [] →
        (raw_return lg prices k lb bb none true).getLast? = some none) ∧
      (t + 2 < xs.length → (lagShift (lagShift xs))[t]? = xs[t + 2]?) := by
  have heq : raw_return lg prices k lb bb none true =
      lagShift (raw_return lg prices k lb bb none false) := by
    cases bb <;> rfl
  refine ⟨heq, ?_, ?_, ?_, ?_⟩
  · rw [heq, lagShift_length]
  · intro h
    rw [heq, lagShift_getElem? _ _ h]
  · intro hne
    rw [heq]
    apply lagShift_getLast?
    intro hnil
    have := raw_return_nolag_length lg prices k lb bb
    rw [hnil] at this
    exact hne (List.eq_nil_of_length_eq_zero this.symm)
  · intro h
    have h1 : t + 1 < (lagShift xs).length := by
      rw [lagShift_length]; omega
    rw [lagShift_getElem? _ _ h1, lagShift_getElem? _ _ h]

/-- Witness for C4 at prices `[(0, 2), (1, 3), (2, 5)]`, `k = 1`, `t = 0`. -/
theorem C4_lag_shifts_by_one_witness :
    (raw_return (fun q : ℚ => q) [(0, 2), (1, 3), (2, 5)] 1 false false none
        true =
      lagShift (raw_return (fun q : ℚ => q) [(0, 2), (1, 3), (2, 5)] 1 false
        false none false)) ∧
    ((raw_return (fun q : ℚ => q) [(0, 2), (1, 3), (2, 5)] 1 false false none
        true)[0]? =
      (raw_return (fun q : ℚ => q) [(0, 2), (1, 3), (2, 5)] 1 false false
        none false)[1]?) ∧
    ((raw_return (fun q : ℚ => q) [(0, 2), (1, 3), (2, 5)] 1 false false none
        true).getLast? = some none) ∧
    ((lagShift (lagShift [some (1 : ℚ), none, some 2]))[0]? =
      [some (1 : ℚ), none, some 2][2]?) := by
  obtain ⟨h1, _, h3, h4, h5⟩ :=
    C4_lag_shifts_by_one (fun q : ℚ => q) [(0, 2), (1, 3), (2, 5)] 1 false
      false 0 [some (1 : ℚ), none, some 2]
  exact ⟨h1, h3 (by decide), h4 (by decide), h5 (by decide)⟩

theorem lagShift_binarize {α : Type} [LinearOrderedField α]
    (xs : List (Option α)) : lagShift (binarize xs) = binarize (lagShift xs) := by
  cases xs with
  | nil => rfl
  | cons x rest => simp [binarize, lagShift]

/-- C10: sign discretisation and the one-step backward shift commute — on
any series, and in particular the full operation with `binary` and `lag`
both set equals discretising after shifting. -/
theorem C10_binary_lag_commute {α : Type} [LinearOrderedField α]
    (lg : α → α) (xs : List (Option α)) (prices : List (Nat × α)) (k : Nat)
    (lb : Bool) (rb : Option (Nat → Nat)) :
    (lagShift (binarize xs) = binarize (lagShift xs)) ∧
      (raw_return lg prices k lb true rb true =
        binarize (lagShift (raw_return lg prices k lb false rb false))) := by
  refine ⟨lagShift_binarize xs, ?_⟩
  show lagShift (binarize
      (returnsCore lg lb k ((resampledPrices prices rb).map Prod.snd))) =
    binarize (lagShift
      (returnsCore lg lb k ((resampledPrices prices rb).map Prod.snd)))
  exact lagShift_binarize _

theorem returnsCore_all_none {α : Type} [LinearOrderedField α] (lg : α → α)
    (lb : Bool) (k : Nat) (ps : List α) (h : ps.length ≤ k) :
    ∀ x ∈ returnsCore lg lb k ps, x = none := by
  intro x hx
  unfold returnsCore at hx
  rw [List.mem_map] at hx
  obtain ⟨t, htr, rfl⟩ := hx
  rw [List.mem_range] at htr
  rw [if_neg (by omega)]

theorem all_none_binarize {α : Type} [LinearOrderedField α]
    (xs : List (Option α)) (h : ∀ y ∈ xs, y = none) :
    ∀ x ∈ binarize xs, x = none := by
  intro x hx
  rw [binarize, List.mem_map] at hx
  obtain ⟨y, hy, rfl⟩ := hx
  rw [h y hy]
  rfl

theorem all_none_lagShift {α : Type} (xs : List (Option α))
    (h : ∀ y ∈ xs, y = none) : ∀ x ∈ lagShift xs, x = none := by
  intro x hx
  cases xs with
  | nil => simp [lagShift] at hx
  | cons z rest =>
    rw [lagShift, List.mem_append] at hx
    rcases hx with hx | hx
    · exact h x (List.mem_cons_of_mem z hx)
    · simpa using hx

/-- C6: when the (resampled) series has no more observations than
`lookback`, every output position is the missing marker, the warning channel
fires, and the call still returns a series. -/
theorem C6_oversized_lookback {α : Type} [LinearOrderedField α] (lg : α → α)
    (prices : List (Nat × α)) (k : Nat) (lb bb lagb : Bool)
    (rb : Option (Nat → Nat))
    (hlen : (resampledPrices prices rb).length ≤ k) :
    (∀ x ∈ (raw_return_w lg prices k lb bb rb lagb).1, x = none) ∧
      (raw_return_w lg prices k lb bb rb lagb).2 = true := by
  have hlen' : ((resampledPrices prices rb).map Prod.snd).length ≤ k := by
    simpa using hlen
  have hcore := returnsCore_all_none lg lb k
    ((resampledPrices prices rb).map Prod.snd) hlen'
  constructor
  · cases lagb with
    | false =>
      cases bb with
      | false => exact hcore
      | true => exact all_none_binarize _ hcore
    | true =>
      cases bb with
      | false => exact all_none_lagShift _ hcore
      | true => exact all_none_lagShift _ (all_none_binarize _ hcore)
  · simp only [raw_return_w, decide_eq_true_eq]
    exact hlen

/-- Witness for C6 at the one-observation series `[(0, 2)]` with
`lookback = 1`. -/
theorem C6_oversized_lookback_witness :
    (∀ x ∈ (raw_return_w (fun q : ℚ => q) [(0, 2)] 1 false false none
        false).1, x = none) ∧
      (raw_return_w (fun q : ℚ => q) [(0, 2)] 1 false false none
        false).2 = true :=
  C6_oversized_lookback (fun q : ℚ => q) [(0, 2)] 1 false false false none
    (by decide)

theorem raw_return_binary_eq_binarize {α : Type} [LinearOrderedField α]
    (lg : α → α) (prices : List (Nat × α)) (k : Nat) (lb : Bool)
    (rb : Option (Nat → Nat)) (lagb : Bool) :
    raw_return lg prices k lb true rb lagb =
      binarize (raw_return lg prices k lb false rb lagb) := by
  cases lagb with
  | false => rfl
  | true =>
    show lagShift (binarize
        (returnsCore lg lb k ((resampledPrices prices rb).map Prod.snd))) =
      binarize (lagShift
        (returnsCore lg lb k ((resampledPrices prices rb).map Prod.snd)))
    exact lagShift_binarize _

/-- C3: with `binary = true`, every position holds the sign of the
corresponding non-binary return (so every defined value is in
`{-1, 0, 1}`) and undefined positions stay missing; on the notebook's
prices `[24.23, 24.23, 24.09, 23.84, 24.00]` with `lookback = 1` the binary
output is `[missing, 0, -1, -1, 1]`. -/
theorem C3_binary_is_sign {α : Type} [LinearOrderedField α] (lg : α → α)
    (prices : List (Nat × α)) (k : Nat) (lb : Bool)
    (rb : Option (Nat → Nat)) (lagb : Bool) (t : Nat) :
    ((raw_return lg prices k lb true rb lagb)[t]? =
        ((raw_return lg prices k lb false rb lagb)[t]?).map
          (Option.map signVal)) ∧
      (∀ r : α, signVal r = -1 ∨ signVal r = 0 ∨ signVal r = 1) ∧
      (∀ r : α, r < 0 → signVal r = -1) ∧
      signVal (0 : α) = 0 ∧
      (∀ r : α, 0 < r → signVal r = 1) ∧
      raw_return (fun q : ℚ => q)
          [(0, 24.23), (1, 24.23), (2, 24.09), (3, 23.84), (4, 24.00)] 1
          false true none false =
        [none, some 0, some (-1), some (-1), some 1] := by
  refine ⟨?_, ?_, ?_, ?_, ?_, ?_⟩
  · rw [raw_return_binary_eq_binarize, binarize_getElem?]
  · intro r
    unfold signVal
    split_ifs <;> simp
  · intro r hr
    simp [signVal, hr]
  · simp [signVal]
  · intro r hr
    have h1 : ¬ r < 0 := not_lt.mpr (le_of_lt hr)
    have h2 : ¬ r = 0 := ne_of_gt hr
    simp [signVal, h1, h2]
  · show binarize (returnsCore (fun q : ℚ => q) false 1
        ([24.23, 24.23, 24.09, 23.84, 24.00] : List ℚ)) = _
    unfold returnsCore
    have h5 : (([24.23, 24.23, 24.09, 23.84, 24.00] : List ℚ)).length = 5 :=
      rfl
    have hrange : List.range 5 = [0, 1, 2, 3, 4] := rfl
    rw [h5, hrange]
    simp only [List.map_cons, List.map_nil]
    norm_num [binarize, rawReturnAt, signVal]

/-- Witness for C3 at the notebook's prices, `k = 1`, `t = 2`, and sign
evaluations at `-2`, `0`, `2`. -/
theorem C3_binary_is_sign_witness :
    ((raw_return (fun q : ℚ => q)
        [(0, 24.23), (1, 24.23), (2, 24.09), (3, 23.84), (4, 24.00)] 1 false
        true none false)[2]? =
      ((raw_return (fun q : ℚ => q)
        [(0, 24.23), (1, 24.23), (2, 24.09), (3, 23.84), (4, 24.00)] 1 false
        false none false)[2]?).map (Option.map signVal)) ∧
    signVal (-2 : ℚ) = -1 ∧ signVal (0 : ℚ) = 0 ∧ signVal (2 : ℚ) = 1 := by
  obtain ⟨h1, _, h3, h4, h5, _⟩ :=
    C3_binary_is_sign (fun q : ℚ => q)
      [(0, 24.23), (1, 24.23), (2, 24.09), (3, 23.84), (4, 24.00)] 1 false
      none false 2
  exact ⟨h1, h3 (-2) (by decide), h4, h5 2 (by decide)⟩

/-- C2: with `logarithmic = true` the output at each defined position is
`ln(price[t]) - ln(price[t-k])`, equal to `ln(price[t]/price[t-k])`; on the
notebook's prices `[24.23, 24.23, 24.09, 23.84, 24.00]` with `lookback = 1`
the output is `[missing, 0, ln(24.09/24.23), ln(23.84/24.09),
ln(24.00/23.84)]`. -/
theorem C2_logarithmic_return (prices : List (Nat × ℝ)) (k t : Nat)
    (pt pk : ℝ) (hpos : ∀ p ∈ prices, 0 < p.2) (hk : 1 ≤ k) (hkt : k ≤ t)
    (h1 : (prices.map Prod.snd)[t]? = some pt)
    (h2 : (prices.map Prod.snd)[t - k]? = some pk) :
    ((raw_return Real.log prices k true false none false)[t]? =
        some (some (Real.log pt - Real.log pk))) ∧
      Real.log pt - Real.log pk = Real.log (pt / pk) ∧
      raw_return Real.log
          [(0, 24.23), (1, 24.23), (2, 24.09), (3, 23.84), (4, 24.00)] 1
          true false none false =
        [none, some 0, some (Real.log (24.09 / 24.23)),
          some (Real.log (23.84 / 24.09)),
          some (Real.log (24.00 / 23.84))] := by
  have hmem : ∀ {i : Nat} {a : ℝ}, (prices.map Prod.snd)[i]? = some a →
      0 < a := by
    intro i a h
    rcases List.getElem?_eq_some.mp h with ⟨hi, heq⟩
    have ha : a ∈ prices.map Prod.snd := heq ▸ List.getElem_mem hi
    rcases List.mem_map.mp ha with ⟨p, hp, hpa⟩
    exact hpa ▸ hpos p hp
  have hpt := hmem h1
  have hpk := hmem h2
  have hlog : Real.log pt - Real.log pk = Real.log (pt / pk) :=
    (Real.log_div (ne_of_gt hpt) (ne_of_gt hpk)).symm
  refine ⟨?_, hlog, ?_⟩
  · have ht : t < (prices.map Prod.snd).length :=
      (List.getElem?_eq_some.mp h1).1
    rw [raw_return_noresample_nolag_getElem?,
        returnsCore_getElem? _ _ _ _ _ ht, if_pos hkt, h1, h2]
    simp [rawReturnAt, hlog]
  · show returnsCore Real.log true 1
        ([24.23, 24.23, 24.09, 23.84, 24.00] : List ℝ) = _
    unfold returnsCore
    have h5 : (([24.23, 24.23, 24.09, 23.84, 24.00] : List ℝ)).length = 5 :=
      rfl
    have hrange : List.range 5 = [0, 1, 2, 3, 4] := rfl
    rw [h5, hrange]
    simp only [List.map_cons, List.map_nil]
    norm_num [rawReturnAt, Real.log_one]

/-- Witness for C2 at the notebook's prices, `k = 1`, `t = 2`. -/
theorem C2_logarithmic_return_witness :
    ((raw_return Real.log
        [(0, 24.23), (1, 24.23), (2, 24.09), (3, 23.84), (4, 24.00)] 1 true
        false none false)[2]? =
      some (some (Real.log (24.09 : ℝ) - Real.log 24.23))) ∧
      Real.log (24.09 : ℝ) - Real.log 24.23 = Real.log (24.09 / 24.23) ∧
      raw_return Real.log
          [(0, 24.23), (1, 24.23), (2, 24.09), (3, 23.84), (4, 24.00)] 1
          true false none false =
        [none, some 0, some (Real.log (24.09 / 24.23)),
          some (Real.log (23.84 / 24.09)),
          some (Real.log (24.00 / 23.84))] :=
  C2_logarithmic_return
    [(0, 24.23), (1, 24.23), (2, 24.09), (3, 23.84), (4, 24.00)] 1 2 24.09
    24.23 (by intro p hp; fin_cases hp <;> norm_num) (by decide) (by decide)
    rfl rfl

theorem resampleLast_cons_cons {α : Type} (f : Nat → Nat) (x y : Nat × α)
    (rest : List (Nat × α)) :
    resampleLast f (x :: y :: rest) =
      if f x.1 = f y.1 then resampleLast f (y :: rest)
      else x :: resampleLast f (y :: rest) := rfl

theorem externalAggregate_cons {α : Type} (f : Nat → Nat) (x : Nat × α)
    (xs : List (Nat × α)) :
    externalAggregate f (x :: xs) =
      if xs.any (fun z => f z.1 = f x.1) then externalAggregate f xs
      else x :: externalAggregate f xs := rfl

theorem resampleLast_eq_externalAggregate {α : Type} (f : Nat → Nat)
    (s : List (Nat × α))
    (hs : (s.map fun x => f x.1).Sorted (· ≤ ·)) :
    resampleLast f s = externalAggregate f s := by
  induction s with
  | nil => rfl
  | cons x xs ih =>
    rw [List.map_cons, List.sorted_cons] at hs
    obtain ⟨hx, hxs⟩ := hs
    cases xs with
    | nil => rfl
    | cons y rest =>
      by_cases h : f x.1 = f y.1
      · have hany : ((y :: rest).any fun z => decide (f z.1 = f x.1)) =
            true := by
          simp only [List.any_cons, Bool.or_eq_true, decide_eq_true_eq]
          exact Or.inl h.symm
        rw [resampleLast_cons_cons, if_pos h, externalAggregate_cons,
            if_pos hany]
        exact ih hxs
      · have hany : ((y :: rest).any fun z => decide (f z.1 = f x.1)) =
            false := by
          rw [List.any_eq_false]
          intro z hz
          simp only [decide_eq_true_eq]
          intro hzx
          rcases List.mem_cons.mp hz with hz | hz
          · exact h ((hz ▸ hzx).symm)
          · have hyz : f y.1 ≤ f z.1 := by
              rw [List.map_cons, List.sorted_cons] at hxs
              exact hxs.1 (f z.1) (List.mem_map.mpr ⟨z, hz, rfl⟩)
            have hxy : f x.1 ≤ f y.1 :=
              hx (f y.1)
                (List.mem_map.mpr ⟨y, List.mem_cons_self y rest, rfl⟩)
            exact h (le_antisymm hxy (hzx ▸ hyz))
        rw [resampleLast_cons_cons, if_neg h, externalAggregate_cons,
            if_neg (by simp [hany])]
        exact congrArg (x :: ·) (ih hxs)

/-- C5: computing returns with `resample_by` set equals computing returns,
without resampling, on the series aggregated to that frequency by an
external process taking the last price observed in each bucket — provided
the bucket assignment is monotone along the series, as a frequency code on
increasing timestamps is. -/
theorem C5_resample_roundtrip {α : Type} [LinearOrderedField α] (lg : α → α)
    (prices : List (Nat × α)) (k : Nat) (lb bb lagb : Bool) (f : Nat → Nat)
    (hmono : (prices.map fun x => f x.1).Sorted (· ≤ ·)) :
    raw_return lg prices k lb bb (some f) lagb =
      raw_return lg (externalAggregate f prices) k lb bb none lagb := by
  show rawReturnFlat lg k lb bb lagb
      ((resampledPrices prices (some f)).map Prod.snd) =
    rawReturnFlat lg k lb bb lagb
      ((resampledPrices (externalAggregate f prices) none).map Prod.snd)
  rw [show resampledPrices prices (some f) = resampleLast f prices from rfl,
      show resampledPrices (externalAggregate f prices) none =
        externalAggregate f prices from rfl,
      resampleLast_eq_externalAggregate f prices hmono]

/-- Witness for C5 at the series `[(0, 2), (1, 3), (2, 5), (3, 7)]` with the
bucket assignment `t / 2` (buckets `[0, 0, 1, 1]`). -/
theorem C5_resample_roundtrip_witness :
    raw_return (fun q : ℚ => q) [(0, 2), (1, 3), (2, 5), (3, 7)] 1 false
        false (some (fun t => t / 2)) false =
      raw_return (fun q : ℚ => q)
        (externalAggregate (fun t => t / 2) [(0, 2), (1, 3), (2, 5), (3, 7)])
        1 false false none false :=
  C5_resample_roundtrip (fun q : ℚ => q) [(0, 2), (1, 3), (2, 5), (3, 7)] 1
    false false false (fun t => t / 2) (by decide)

/-- Modelled from the spec: an IEEE-754-style extended value — a finite
number, a signed infinity, or NaN — used to state that zero-division and
logarithm edge cases propagate rather than raise (spec sections 4.1 and 7).
Signed zeros are collapsed to `fin 0`. -/
inductive IEEEVal where
  | fin (q : ℚ)
  | inf
  | ninf
  | nan
deriving DecidableEq

/-- Modelled from the spec: IEEE-754 division on extended values.  Division
of a nonzero finite number by zero gives a signed infinity, `0 / 0` gives
NaN, and NaN propagates through every operation. -/
def IEEEVal.div : IEEEVal → IEEEVal → IEEEVal
  | nan, _ => nan
  | _, nan => nan
  | fin a, fin b =>
    if b = 0 then (if 0 < a then inf else if a < 0 then ninf else nan)
    else fin (a / b)
  | fin _, inf => fin 0
  | fin _, ninf => fin 0
  | inf, fin b => if 0 ≤ b then inf else ninf
  | ninf, fin b => if 0 ≤ b then ninf else inf
  | inf, inf => nan
  | inf, ninf => nan
  | ninf, inf => nan
  | ninf, ninf => nan

/-- Modelled from the spec: subtracting one, as the simple-return formula
does after the division; infinities and NaN propagate. -/
def IEEEVal.subOne : IEEEVal → IEEEVal
  | fin a => fin (a - 1)
  | inf => inf
  | ninf => ninf
  | nan => nan

/-- Modelled from the spec: the IEEE-754 logarithm on extended values:
finite on positive finite arguments (via the parameter `lg`), `-∞` at zero,
NaN on negative arguments, and NaN/`∞` propagate. -/
def IEEEVal.logv (lg : ℚ → ℚ) : IEEEVal → IEEEVal
  | fin a => if 0 < a then fin (lg a) else if a = 0 then ninf else nan
  | inf => inf
  | ninf => nan
  | nan => nan

/-- Modelled from the spec: true on the non-finite values `∞`, `-∞`, NaN. -/
def IEEEVal.isUndef : IEEEVal → Bool
  | fin _ => false
  | inf => true
  | ninf => true
  | nan => true

/-- Modelled from the spec: the per-position return under IEEE-754
semantics: `p_t / p_{t-k} - 1` in simple mode, `log(p_t / p_{t-k})` in
logarithmic mode, each evaluated on extended values. -/
def ieeeReturnAt (lg : ℚ → ℚ) (logarithmic : Bool) (pt pk : ℚ) : IEEEVal :=
  if logarithmic then ((IEEEVal.fin pt).div (IEEEVal.fin pk)).logv lg
  else ((IEEEVal.fin pt).div (IEEEVal.fin pk)).subOne

/-- Modelled from the spec: the return series computed under IEEE-754
semantics (steps 2-3 of the algorithm, with extended values). -/
def ieeeReturns (lg : ℚ → ℚ) (logarithmic : Bool) (lookback : Nat)
    (ps : List ℚ) : List (Option IEEEVal) :=
  (List.range ps.length).map fun t =>
    if lookback ≤ t then
      ps[t]?.bind fun pt => (ps[t - lookback]?).map fun pk =>
        ieeeReturnAt lg logarithmic pt pk
    else none

theorem IEEEVal.div_fin_fin (a b : ℚ) :
    (IEEEVal.fin a).div (IEEEVal.fin b) =
      if b = 0 then
        (if 0 < a then IEEEVal.inf
         else if a < 0 then IEEEVal.ninf else IEEEVal.nan)
      else IEEEVal.fin (a / b) := rfl

theorem IEEEVal.logv_fin (lg : ℚ → ℚ) (a : ℚ) :
    (IEEEVal.fin a).logv lg =
      if 0 < a then IEEEVal.fin (lg a)
      else if a = 0 then IEEEVal.ninf else IEEEVal.nan := rfl

theorem ieeeReturns_getElem? (lg : ℚ → ℚ) (logarithmic : Bool)
    (lookback : Nat) (ps : List ℚ) (t : Nat) (ht : t < ps.length) :
    (ieeeReturns lg logarithmic lookback ps)[t]? =
      some (if lookback ≤ t then
        ps[t]?.bind fun pt => (ps[t - lookback]?).map fun pk =>
          ieeeReturnAt lg logarithmic pt pk
      else none) := by
  unfold ieeeReturns
  rw [List.getElem?_map, List.getElem?_range ht]
  rfl

/-- C8: a zero price at position `t - lookback` (or a zero/negative price
under logarithmic mode) does not abort the computation: the series stays
fully computed — same length, every position with enough history defined —
and the IEEE-754 undefined value (`∞`, `-∞` or NaN) appears at the affected
position. -/
theorem C8_ieee_zero_division_propagates (lg : ℚ → ℚ) (lb : Bool)
    (k t : Nat) (ps : List ℚ) :
    ((ieeeReturns lg lb k ps).length = ps.length) ∧
      (k ≤ t → t < ps.length →
        ∃ v, (ieeeReturns lg lb k ps)[t]? = some (some v)) ∧
      (∀ pt : ℚ, k ≤ t → ps[t]? = some pt → ps[t - k]? = some 0 →
        (ieeeReturns lg false k ps)[t]? =
          some (some (if 0 < pt then IEEEVal.inf
            else if pt < 0 then IEEEVal.ninf else IEEEVal.nan))) ∧
      (∀ pt pk : ℚ, k ≤ t → ps[t]? = some pt → ps[t - k]? = some pk →
        (pt = 0 → 0 < pk →
          (ieeeReturns lg true k ps)[t]? = some (some IEEEVal.ninf)) ∧
        (0 < pt → pk = 0 →
          (ieeeReturns lg true k ps)[t]? = some (some IEEEVal.inf)) ∧
        (pt < 0 → 0 < pk →
          (ieeeReturns lg true k ps)[t]? = some (some IEEEVal.nan))) := by
  refine ⟨?_, ?_, ?_, ?_⟩
  · simp [ieeeReturns]
  · intro hkt ht
    have htk : t - k < ps.length := lt_of_le_of_lt (Nat.sub_le t k) ht
    rw [ieeeReturns_getElem? _ _ _ _ _ ht, if_pos hkt,
        List.getElem?_eq_getElem ht, List.getElem?_eq_getElem htk]
    exact ⟨_, rfl⟩
  · intro pt hkt h1 h2
    have ht : t < ps.length := (List.getElem?_eq_some.mp h1).1
    rw [ieeeReturns_getElem? _ _ _ _ _ ht, if_pos hkt, h1, h2]
    show some (some (ieeeReturnAt lg false pt 0)) = _
    have hval : ieeeReturnAt lg false pt 0 =
        if 0 < pt then IEEEVal.inf
        else if pt < 0 then IEEEVal.ninf else IEEEVal.nan := by
      show ((IEEEVal.fin pt).div (IEEEVal.fin 0)).subOne = _
      rw [IEEEVal.div_fin_fin, if_pos rfl]
      split_ifs <;> rfl
    rw [hval]
  · intro pt pk hkt h1 h2
    have ht : t < ps.length := (List.getElem?_eq_some.mp h1).1
    have hbase : (ieeeReturns lg true k ps)[t]? =
        some (some (ieeeReturnAt lg true pt pk)) := by
      rw [ieeeReturns_getElem? _ _ _ _ _ ht, if_pos hkt, h1, h2]
      rfl
    refine ⟨?_, ?_, ?_⟩
    · intro hpt hpk
      rw [hbase]
      have hval : ieeeReturnAt lg true pt pk = IEEEVal.ninf := by
        show ((IEEEVal.fin pt).div (IEEEVal.fin pk)).logv lg = _
        rw [IEEEVal.div_fin_fin, if_neg (ne_of_gt hpk), hpt, zero_div,
            IEEEVal.logv_fin, if_neg (lt_irrefl 0), if_pos rfl]
      rw [hval]
    · intro hpt hpk
      rw [hbase]
      have hval : ieeeReturnAt lg true pt pk = IEEEVal.inf := by
        show ((IEEEVal.fin pt).div (IEEEVal.fin pk)).logv lg = _
        rw [IEEEVal.div_fin_fin, if_pos hpk, if_pos hpt]
        rfl
      rw [hval]
    · intro hpt hpk
      rw [hbase]
      have hval : ieeeReturnAt lg true pt pk = IEEEVal.nan := by
        show ((IEEEVal.fin pt).div (IEEEVal.fin pk)).logv lg = _
        have hdiv : pt / pk < 0 := div_neg_of_neg_of_pos hpt hpk
        rw [IEEEVal.div_fin_fin, if_neg (ne_of_gt hpk), IEEEVal.logv_fin,
            if_neg (not_lt.mpr (le_of_lt hdiv)), if_neg (ne_of_lt hdiv)]
      rw [hval]

/-- Witness for C8 at the series `[0, 1]` with `lookback = 1`: position 1
divides by the zero price at position 0 and yields `∞` in simple mode and
`∞` in logarithmic mode, with the series fully computed. -/
theorem C8_ieee_zero_division_propagates_witness :
    ((ieeeReturns (fun q : ℚ => q) false 1 [0, 1]).length = 2) ∧
      (∃ v, (ieeeReturns (fun q : ℚ => q) false 1 [0, 1])[1]? =
        some (some v)) ∧
      ((ieeeReturns (fun q : ℚ => q) false 1 [0, 1])[1]? =
        some (some IEEEVal.inf)) ∧
      ((ieeeReturns (fun q : ℚ => q) true 1 [0, 1])[1]? =
        some (some IEEEVal.inf)) := by
  obtain ⟨h1, h2, h3, h4⟩ :=
    C8_ieee_zero_division_propagates (fun q : ℚ => q) false 1 1 [0, 1]
  refine ⟨h1, h2 (by decide) (by decide), ?_, ?_⟩
  · have h3' := h3 1 (by decide) rfl rfl
    rwa [if_pos (by norm_num : (0 : ℚ) < 1)] at h3'
  · exact (h4 1 0 (by decide) rfl rfl).2.1 (by norm_num) rfl
